import Mathlib

/-!
Verification development for the hackathon-dashboard application (`src/app.py`).

The file shallowly embeds the application's core procedures in Lean:

* the synthetic dataset generator `generate_dataset` (participant records,
  day-windowed registration timestamps, sentiment-conditioned completion
  percentages, templated feedback text);
* the keyword sentiment scorer of `domain_feedback_analysis`;
* the word-frequency extractor of `feedback_analysis`
  (regex tokenisation, stop-word filter, `Counter(...).most_common`);
* the CSV export/import round trip of `generate_dataset_page`
  (default pandas dialect: comma separator, minimal quoting, newline rows);
* the manual sepia pixel transform of `image_processing`.

Python's Mersenne-Twister PRNG is abstracted as a stream of draws: a `Rng`
provides an unbounded natural draw and a rational draw for every position of
the consumed stream, and every library call (`random.choice`, `random.randint`,
`random.random`, `random.choices`, `random.uniform`) consumes stream positions
in the order the source consumes PRNG state.  `random.seed(seed)` makes the
whole stream a function of the seed, which is how determinism is stated.
Machine floats are modelled as exact rationals (the sub-microsecond rounding
of `datetime.timedelta` and binary-float rounding are idealised away; decimal
literals such as `0.6` are exact rationals here).
-/

/-- Abstract stream of pseudo-random draws: `nat k` is the `k`-th natural
draw (reduced modulo the required range at the call site) and `frac k` the
`k`-th `random.random()` draw (a rational, in `[0,1)` for faithful streams). -/
structure Rng where
  nat : ℕ → ℕ
  frac : ℕ → ℚ

/-- The `first_names` pool of `generate_dataset`. -/
def firstNames : List String :=
  ["James", "Mary", "John", "Patricia", "Robert", "Jennifer", "Michael",
   "Linda", "William", "Elizabeth", "David", "Susan", "Richard", "Jessica",
   "Joseph", "Sarah", "Thomas", "Karen", "Charles", "Nancy", "Christopher",
   "Lisa", "Daniel", "Margaret", "Matthew", "Betty", "Anthony", "Sandra",
   "Donald", "Ashley", "Mark", "Dorothy", "Paul", "Kimberly", "Steven",
   "Emily", "Andrew", "Donna", "Kenneth", "Michelle", "Joshua", "Carol",
   "Kevin", "Amanda", "Brian", "Melissa", "George", "Deborah", "Edward",
   "Stephanie", "Ronald", "Rebecca", "Timothy", "Laura", "Jason", "Helen",
   "Jeffrey", "Sharon", "Ryan", "Cynthia", "Rajesh", "Priya", "Sanjay",
   "Neha", "Vikram", "Ananya", "Arun", "Kavita", "Amit", "Deepika"]

/-- The `last_names` pool of `generate_dataset`. -/
def lastNames : List String :=
  ["Smith", "Johnson", "Williams", "Brown", "Jones", "Garcia", "Miller",
   "Davis", "Rodriguez", "Martinez", "Hernandez", "Lopez", "Gonzalez",
   "Wilson", "Anderson", "Thomas", "Taylor", "Moore", "Jackson", "Martin",
   "Lee", "Perez", "Thompson", "White", "Harris", "Sanchez", "Clark",
   "Ramirez", "Lewis", "Robinson", "Walker", "Young", "Allen", "King",
   "Wright", "Scott", "Torres", "Nguyen", "Hill", "Flores", "Patel",
   "Sharma", "Singh", "Kumar", "Shah", "Gupta", "Verma", "Joshi",
   "Malhotra", "Chopra"]

/-- The `colleges` pool of `generate_dataset`. -/
def colleges : List String :=
  ["IIT Bombay", "IIT Delhi", "IIT Madras", "IIT Kanpur", "IIT Kharagpur",
   "BITS Pilani", "BITS Hyderabad", "BITS Goa", "NIT Trichy", "NIT Warangal",
   "NIT Surathkal", "Delhi Technological University", "VIT Vellore",
   "IIIT Hyderabad", "Manipal Institute of Technology", "SRM University",
   "Amrita University", "Thapar University", "College of Engineering Pune",
   "PES University", "SSN College of Engineering",
   "RV College of Engineering", "BMS College of Engineering",
   "MS Ramaiah Institute of Technology", "Jadavpur University",
   "Anna University", "KIIT University", "LNM Institute of Technology",
   "Chandigarh University", "Amity University",
   "Lovely Professional University", "Shiv Nadar University"]

/-- The gender pool passed to `random.choice` in `generate_dataset`. -/
def genders : List String := ["Male", "Female", "Other"]

/-- The `positive_feedback` template pool. -/
def positiveFeedback : List String :=
  ["I loved the {domain} hackathon! The mentors were very helpful.",
   "Great experience in the {domain} event. Would definitely participate again!",
   "The {domain} challenge was tough but rewarding. Learned a lot!",
   "Amazing organization and support at the {domain} track!",
   "Very insightful {domain} hackathon. Made great connections!",
   "Thoroughly enjoyed working on {domain} projects. The workshops were excellent!",
   "Well-structured {domain} challenges. Got valuable industry exposure.",
   "The {domain} event was eye-opening! Can't wait for the next one.",
   "Gained practical knowledge about {domain}. Very beneficial for my career.",
   "Excellent facilities and resources for the {domain} hackathon!"]

/-- The `neutral_feedback` template pool. -/
def neutralFeedback : List String :=
  ["The {domain} hackathon was okay. Some aspects could be improved.",
   "Average experience at the {domain} event. Nothing special.",
   "The {domain} track had some good and bad moments.",
   "Decent organization of the {domain} hackathon. Expected more mentorship.",
   "The {domain} challenge was moderately difficult. Internet connection was spotty.",
   "Food could be better at the {domain} event, but overall it was fine.",
   "The {domain} workshops were informative but too short.",
   "Mixed feelings about the {domain} track. Some judges seemed biased.",
   "The {domain} hackathon schedule was too tight. Barely had time to complete.",
   "Moderate learning experience in {domain}. Not sure if I'll participate again."]

/-- The `negative_feedback` template pool. -/
def negativeFeedback : List String :=
  ["The {domain} hackathon was disappointing. Poor organization.",
   "Not enough guidance in the {domain} track. Felt lost most of the time.",
   "Too many technical issues during the {domain} challenge.",
   "The {domain} event was overcrowded and noisy. Couldn't focus.",
   "Unclear instructions for the {domain} hackathon. Very frustrating.",
   "The {domain} mentors were rarely available when needed.",
   "The {domain} track was too advanced for beginners. More tutorials needed.",
   "Poor facilities at the {domain} event. No proper rest areas.",
   "The {domain} hackathon was exhausting with minimal benefits.",
   "Didn't learn much from the {domain} workshops. Too basic content."]

/-- The `domain_keywords` dictionary of `generate_dataset`. -/
def domainKeywords : List (String × List String) :=
  [("Web Development",
    ["HTML", "CSS", "JavaScript", "React", "frontend", "backend", "API",
     "responsive"]),
   ("Mobile App Development",
    ["Android", "iOS", "Flutter", "React Native", "UI/UX", "mobile", "app"]),
   ("AI/ML",
    ["machine learning", "neural networks", "algorithms", "data", "models",
     "tensorflow", "pytorch"]),
   ("Blockchain",
    ["crypto", "smart contracts", "decentralized", "ethereum", "tokens",
     "web3", "ledger"]),
   ("IoT",
    ["sensors", "devices", "connectivity", "embedded", "Arduino",
     "Raspberry Pi", "automation"]),
   ("Cybersecurity",
    ["security", "encryption", "vulnerability", "firewall", "protection",
     "hacking", "privacy"]),
   ("Game Development",
    ["Unity", "Unreal", "gameplay", "graphics", "mechanics", "levels",
     "characters"]),
   ("Data Science",
    ["visualization", "analytics", "big data", "pandas", "prediction",
     "statistics", "insights"])]

/-- Model of `random.choice(l)`: one natural draw selects an index; an empty
sequence raises `IndexError`, modelled as `none`. -/
def choiceOpt {α : Type} (l : List α) (n : ℕ) : Option α :=
  l.get? (n % l.length)

/-- `random.choice` on the concrete non-empty pools of the source (never hits
the default). -/
def chooseD (l : List String) (n : ℕ) : String :=
  (choiceOpt l n).getD ""

/-- Model of `random.randint(a, b)`: a uniform integer in `[a, b]`, both ends
included, realised from one natural draw. -/
def pyRandint (a b n : ℕ) : ℕ :=
  a + n % (b + 1 - a)

/-- Model of `random.choices(["positive","neutral","negative"],
weights=[0.6, 0.3, 0.1])[0]`: inverse-CDF selection from one `random()` draw,
with the boundary behaviour of `bisect.bisect` on cumulative weights. -/
def sentimentOf (r : ℚ) : String :=
  if r < 0.6 then "positive" else if r < 0.9 then "neutral" else "negative"

/-- The template pool matching a sentiment label (`positive_feedback`,
`neutral_feedback` or `negative_feedback`). -/
def templatesFor (s : String) : List String :=
  if s = "positive" then positiveFeedback
  else if s = "neutral" then neutralFeedback
  else negativeFeedback

/-- Model of `(end_date - start_date).days` in `random_date_time`, where
`start_date = datetime(2023, 3, 15)` and
`end_date = datetime(2023, 3, 15 + day - 1, 23, 59, 59)`: the timedelta is
`(day-1)*86400 + 86399` seconds and `.days` floors it to whole days. -/
def deltaDays (day : ℕ) : ℕ :=
  ((day - 1) * 86400 + 86399) / 86400

/-- Model of `random_date_time(start_date, end_date)` as seconds after the
event epoch (2023-03-15 00:00:00): `random.random() * delta.days` fractional
days plus `random.random() * 86400` seconds. -/
def regTimeModel (day : ℕ) (r1 r2 : ℚ) : ℚ :=
  r1 * (deltaDays day : ℚ) * 86400 + r2 * 86400

/-- Start of the claimed registration window of a day, as seconds after the
event epoch: `event_epoch + (day-1) days` at 00:00:00. -/
def dayWindowLo (day : ℕ) : ℚ :=
  (((day - 1) * 86400 : ℕ) : ℚ)

/-- End of the claimed registration window of a day, as seconds after the
event epoch: `event_epoch + (day-1) days` at 23:59:59. -/
def dayWindowHi (day : ℕ) : ℚ :=
  (((day - 1) * 86400 + 86399 : ℕ) : ℚ)

/-- Model of `round(x, 1)` as used for `time_spent` (rounding to one decimal
place; Python's float banker's rounding is idealised to exact rounding). -/
def roundTo1 (q : ℚ) : ℚ :=
  ((round (q * 10) : ℤ) : ℚ) / 10

/-- Replace every occurrence of `pat` in a character list (fuel-bounded so the
recursion is structural); models `str.replace`-style substitution. -/
def substAux (pat rep : List Char) : ℕ → List Char → List Char
  | 0, s => s
  | _ + 1, [] => []
  | f + 1, c :: cs =>
    if (c :: cs).take pat.length = pat then
      rep ++ substAux pat rep f ((c :: cs).drop pat.length)
    else
      c :: substAux pat rep f cs

/-- Model of `template.format(domain=domain)`: substitute the `{domain}`
placeholder. -/
def fmtDomain (template domain : String) : String :=
  String.mk (substAux "{domain}".data domain.data template.data.length template.data)

/-- Decimal digit character, used to model `f"P{i:03d}"`. -/
def digChar (d : ℕ) : Char :=
  Char.ofNat (48 + d)

/-- Little-endian decimal digits of `n` (fuel-bounded structural recursion;
`digitsRev n n` is the full digit list, empty for `0`). -/
def digitsRev : ℕ → ℕ → List ℕ
  | 0, _ => []
  | _ + 1, 0 => []
  | f + 1, n + 1 => ((n + 1) % 10) :: digitsRev f ((n + 1) / 10)

/-- Value of a little-endian decimal digit list. -/
def decVal : List ℕ → ℕ
  | [] => 0
  | d :: ds => d + 10 * decVal ds

/-- Left-pad a big-endian digit list with zeros to width 3 (the `03d` format). -/
def pad3 (ds : List ℕ) : List ℕ :=
  List.replicate (3 - ds.length) 0 ++ ds

/-- Big-endian zero-padded decimal digits of `i`, as in `f"{i:03d}"`. -/
def pidDigits (i : ℕ) : List ℕ :=
  pad3 (digitsRev i i).reverse

/-- Model of `participant_id = f"P{i:03d}"`. -/
def pidStr (i : ℕ) : String :=
  "P" ++ String.mk ((pidDigits i).map digChar)

/-- Decode a participant id back to its number (left inverse of `pidStr`). -/
def unpid (s : String) : ℕ :=
  decVal (((s.data.drop 1).map (fun c => c.toNat - 48)).reverse)

/-- One participant record of the generated table (the `Registration_Time`
column is kept as rational seconds after the 2023-03-15 epoch). -/
structure Participant where
  pid : String
  name : String
  age : ℕ
  gender : String
  college : String
  state : String
  domain : String
  day : ℕ
  regTime : ℚ
  timeSpent : ℚ
  completion : ℕ
  feedback : String
deriving DecidableEq

/-- Model of one iteration of the `generate_dataset` loop: builds participant
`i` starting at stream position `k`, returning the record and the next stream
position, or `none` when `random.choice` hits an empty sequence
(`IndexError`).  Draws are consumed in the source's order: first name, last
name, age, gender, college, state, domain, day, two `random()` draws for the
registration time, `random.uniform(4,10)`, the sentiment draw, the template
choice, the optional domain-keyword choice, and the completion draw. -/
def mkParticipant (rng : Rng) (domains states : List String) (i k : ℕ) :
    Option (Participant × ℕ) :=
  let nm := chooseD firstNames (rng.nat k) ++ " " ++ chooseD lastNames (rng.nat (k + 1))
  let age := pyRandint 18 35 (rng.nat (k + 2))
  let gender := chooseD genders (rng.nat (k + 3))
  let college := chooseD colleges (rng.nat (k + 4))
  match choiceOpt states (rng.nat (k + 5)) with
  | none => none
  | some st =>
    match choiceOpt domains (rng.nat (k + 6)) with
    | none => none
    | some dom =>
      let day := pyRandint 1 3 (rng.nat (k + 7))
      let regT := regTimeModel day (rng.frac (k + 8)) (rng.frac (k + 9))
      let hrs := roundTo1 (4 + 6 * rng.frac (k + 10))
      let sent := sentimentOf (rng.frac (k + 11))
      let fb0 := fmtDomain (chooseD (templatesFor sent) (rng.nat (k + 12))) dom
      let fbk :=
        match domainKeywords.lookup dom with
        | some kws =>
          (fb0 ++ " The " ++ chooseD kws (rng.nat (k + 13)) ++
            " component was particularly interesting.", k + 14)
        | none => (fb0, k + 13)
      let comp :=
        if sent ≠ "negative" then pyRandint 60 100 (rng.nat fbk.2)
        else pyRandint 30 85 (rng.nat fbk.2)
      some ({ pid := pidStr i, name := nm, age := age, gender := gender,
              college := college, state := st, domain := dom, day := day,
              regTime := regT, timeSpent := hrs, completion := comp,
              feedback := fbk.1 }, fbk.2 + 1)

/-- The `for i in range(1, num_participants + 1)` loop: `genRows rng ds ss i n k`
produces the records for indices `i, i+1, …, i+n-1` from stream position `k`. -/
def genRows (rng : Rng) (domains states : List String) :
    ℕ → ℕ → ℕ → Option (List Participant)
  | _, 0, _ => some []
  | i, n + 1, k =>
    match mkParticipant rng domains states i k with
    | none => none
    | some (p, k2) =>
      match genRows rng domains states (i + 1) n k2 with
      | none => none
      | some rest => some (p :: rest)

/-- Model of `generate_dataset(num_participants, domains, states, seed)` after
`random.seed(seed)` has produced the draw stream `rng`: `none` models an
uncaught `IndexError` (no table produced), `some rows` the returned DataFrame. -/
def generateDataset (count : ℕ) (domains states : List String) (rng : Rng) :
    Option (List Participant) :=
  genRows rng domains states 1 count 0

/-- Model of the caller-level path in `generate_dataset_page`: an empty domain
selection is rejected (`st.error` and `return None`) before the generator
runs; no other input is validated there. -/
def generateDatasetPage (count : ℕ) (domains states : List String) (rng : Rng) :
    Option (List Participant) :=
  if domains.length < 1 then none else generateDataset count domains states rng

/-- A concrete draw stream used to evaluate the model on explicit inputs. -/
def zeroRng : Rng :=
  { nat := fun _ => 0, frac := fun _ => 0 }

/-- A concrete draw stream whose natural draws are all 1 (so `day = 2`). -/
def oneRng : Rng :=
  { nat := fun _ => 1, frac := fun _ => 0 }

/-- The `positive_keywords` list of `domain_feedback_analysis`. -/
def positiveKeywords : List String :=
  ["loved", "great", "amazing", "excellent", "insightful", "enjoyed",
   "beneficial", "helpful", "rewarding", "best"]

/-- The `negative_keywords` list of `domain_feedback_analysis`. -/
def negativeKeywords : List String :=
  ["disappointing", "poor", "issues", "frustrating", "unclear", "exhausting",
   "minimal", "bad", "lost", "overcrowded"]

/-- Substring test: does `pat` occur as a contiguous run of `l`? -/
def hasSub (pat : List Char) : List Char → Bool
  | [] => pat.isEmpty
  | c :: cs => ((c :: cs).take pat.length == pat) || hasSub pat cs

/-- Model of `Series.str.contains(word, case=False)` on one cell: the keyword
occurs as a case-insensitive substring (the fixed keywords contain no regex
metacharacters, so pandas' regex matching coincides with substring search). -/
def containsCI (text pat : String) : Bool :=
  hasSub (pat.data.map Char.toLower) (text.data.map Char.toLower)

/-- Number of feedback rows containing one keyword
(`feedback.str.contains(word, case=False).sum()`). -/
def keywordRowCount (rows : List String) (w : String) : ℕ :=
  (rows.filter (fun r => containsCI r w)).length

/-- `positive_count`: row hits summed over all positive keywords. -/
def positiveCount (rows : List String) : ℕ :=
  (positiveKeywords.map (keywordRowCount rows)).sum

/-- `negative_count`: row hits summed over all negative keywords. -/
def negativeCount (rows : List String) : ℕ :=
  (negativeKeywords.map (keywordRowCount rows)).sum

/-- Model of the scorer's
`positive_percent = (positive_count / total_keywords * 100) if total_keywords > 0 else 0`. -/
def positivePercent (rows : List String) : ℚ :=
  let total := positiveCount rows + negativeCount rows
  if total > 0 then (positiveCount rows : ℚ) / (total : ℚ) * 100 else 0

/-- Modelled from the spec's words (for the refinement comparison):
`positive_fraction = positive_count / (positive_count + negative_count)`,
defined as 0 when the denominator is 0. -/
def positiveFractionSpec (rows : List String) : ℚ :=
  if positiveCount rows + negativeCount rows = 0 then 0
  else (positiveCount rows : ℚ) / ((positiveCount rows + negativeCount rows : ℕ) : ℚ)

/-- The `stopwords` list of `feedback_analysis`, verbatim (duplicates kept). -/
def stopwordsEN : List String :=
  ["i", "me", "my", "myself", "we", "our", "ours", "ourselves", "you",
   "you're", "you've", "you'll", "you'd", "your", "yours", "yourself",
   "yourselves", "he", "him", "his", "himself", "she", "she's", "her",
   "hers", "herself", "it", "it's", "its", "itself", "they", "them",
   "their", "theirs", "themselves", "what", "which", "who", "whom",
   "this", "that", "that'll", "these", "those", "am", "is", "are",
   "was", "were", "be", "been", "being", "have", "has", "had", "having",
   "do", "does", "did", "doing", "a", "an", "the", "and", "but", "if",
   "or", "because", "as", "until", "while", "of", "at", "by", "for",
   "with", "about", "against", "between", "into", "through", "during",
   "before", "after", "above", "below", "to", "from", "up", "down",
   "in", "out", "on", "off", "over", "under", "again", "further",
   "then", "once", "here", "there", "when", "where", "why", "how",
   "all", "any", "both", "each", "few", "more", "most", "other",
   "some", "such", "no", "nor", "not", "only", "own", "same", "so",
   "than", "too", "very", "s", "t", "can", "will", "just", "don",
   "don't", "should", "should've", "now", "d", "ll", "m", "o", "re",
   "ve", "y", "ain", "aren", "aren't", "couldn", "couldn't", "didn",
   "didn't", "doesn", "doesn't", "hadn", "hadn't", "hasn", "hasn't",
   "haven", "haven't", "isn", "isn't", "ma", "mightn", "mightn't",
   "mustn", "mustn't", "needn", "needn't", "shan", "shan't", "shouldn",
   "shouldn't", "wasn", "wasn't", "weren", "weren't", "won", "won't",
   "wouldn", "wouldn't", "the", "was", "and", "for", "would"]

/-- Word character in the sense of the regex `\b` boundary (`\w`), for the
ASCII inputs this application produces. -/
def isWordChar (c : Char) : Bool :=
  c.isAlphanum || c = '_'

/-- One step of the run scanner: word characters extend the current run,
anything else closes it. -/
def runStep (c : Char) (acc : List Char × List (List Char)) :
    List Char × List (List Char) :=
  if isWordChar c then (c :: acc.1, acc.2)
  else ([], if acc.1 = [] then acc.2 else acc.1 :: acc.2)

/-- Maximal runs of word characters in a character list (in order). -/
def wordRuns (cs : List Char) : List (List Char) :=
  let r := cs.foldr runStep (([] : List Char), ([] : List (List Char)))
  if r.1 = [] then r.2 else r.1 :: r.2

/-- Model of `re.findall(r"\b[a-zA-Z]{3,15}\b", text.lower())`: a maximal
word-character run of the lowercased text is a token exactly when it is purely
alphabetic and between 3 and 15 characters long (a run adjoining a digit or
underscore has no inner `\b` boundary, so it never yields a token). -/
def rawTokens (s : String) : List String :=
  ((wordRuns (s.data.map Char.toLower)).filter
    (fun r => r.all Char.isAlpha && decide (3 ≤ r.length) && decide (r.length ≤ 15))).map
    String.mk

/-- The token list after the stop-word filter
(`[word for word in words if word not in stopwords]`). -/
def tokensOf (s : String) : List String :=
  (rawTokens s).filter (fun w => !(stopwordsEN.contains w))

/-- Fuel-bounded worker for `counterOf`. -/
def counterGo : ℕ → List String → List (String × ℕ)
  | 0, _ => []
  | _ + 1, [] => []
  | f + 1, w :: ws =>
    (w, 1 + ws.count w) :: counterGo f (ws.filter (fun x => !(x == w)))

/-- Model of `Counter(words)` as an observable association list: keys in
first-occurrence order (dict insertion order), values the total counts. -/
def counterOf (ws : List String) : List (String × ℕ) :=
  counterGo ws.length ws

/-- Stable insertion into a list sorted by descending count: the new entry
goes before the first entry whose count is not larger, so earlier entries win
ties, as `heapq.nlargest` does. -/
def insertDesc (p : String × ℕ) : List (String × ℕ) → List (String × ℕ)
  | [] => [p]
  | q :: qs => if q.2 ≤ p.2 then p :: q :: qs else q :: insertDesc p qs

/-- Stable sort by descending count (insertion sort). -/
def sortDesc : List (String × ℕ) → List (String × ℕ)
  | [] => []
  | p :: ps => insertDesc p (sortDesc ps)

/-- Model of `Counter.most_common(k)`: the `k` highest-count entries in
descending count order, ties kept in dict (first-occurrence) order. -/
def mostCommon (k : ℕ) (l : List (String × ℕ)) : List (String × ℕ) :=
  (sortDesc l).take k

/-- The word-frequency extractor of `feedback_analysis`:
`Counter(words).most_common(k)` over the tokenized, stop-word-filtered text
(the source instantiates `k = 15`). -/
def wordFreq (k : ℕ) (s : String) : List (String × ℕ) :=
  mostCommon k (counterOf (tokensOf s))

/-- Ordering of `most_common` output entries: strictly larger count first,
and among equal counts the word whose first occurrence in the token list
comes earlier. -/
def rankRel (tks : List String) (p q : String × ℕ) : Prop :=
  q.2 < p.2 ∨ (p.2 = q.2 ∧ tks.indexOf p.1 < tks.indexOf q.1)

/-- A field must be quoted in the default pandas CSV dialect when it contains
the separator, the quote character or a line break. -/
def csvNeedsQuote (f : List Char) : Bool :=
  f.contains ',' || f.contains '"' || f.contains '\n'

/-- Serialize one field (minimal quoting; quote doubling never triggers for
this table since its fields contain no quote character). -/
def csvField (f : List Char) : List Char :=
  if csvNeedsQuote f then '"' :: (f ++ ['"']) else f

/-- Join serialized fields with the comma separator. -/
def csvJoin : List (List Char) → List Char
  | [] => []
  | [x] => x
  | x :: y :: xs => x ++ ',' :: csvJoin (y :: xs)

/-- One CSV line for a row of fields. -/
def csvLine (row : List String) : List Char :=
  csvJoin (row.map (fun f => csvField f.data))

/-- Model of `DataFrame.to_csv(index=False)` on header plus rows: each line
(header first) terminated by a newline. -/
def csvChars (rows : List (List String)) : List Char :=
  (rows.map csvLine).foldr (fun l acc => l ++ '\n' :: acc) []

/-- Split a character stream into lines at newline characters. -/
def splitLines (cs : List Char) : List (List Char) :=
  cs.foldr
    (fun c acc =>
      if c = '\n' then [] :: acc
      else
        match acc with
        | [] => [[c]]
        | l :: ls => (c :: l) :: ls)
    []

/-- Field splitter of one CSV line: `cur` is the field being read and `inQ`
whether the scanner is inside a quoted section. -/
def splitFields : List Char → List Char → Bool → List String
  | [], cur, _ => [String.mk cur]
  | c :: cs, cur, true =>
    if c = '"' then splitFields cs cur false
    else splitFields cs (cur ++ [c]) true
  | c :: cs, cur, false =>
    if c = '"' then splitFields cs cur true
    else if c = ',' then String.mk cur :: splitFields cs [] false
    else splitFields cs (cur ++ [c]) false

/-- Parse one CSV line into its fields. -/
def parseLine (cs : List Char) : List String :=
  splitFields cs [] false

/-- Model of `pd.read_csv` on the exported text: split into lines, skip blank
lines, use the first line as the header and parse the rest as rows; an empty
file is a parse failure. -/
def readCSV (cs : List Char) : Option (List String × List (List String)) :=
  match (splitLines cs).filter (fun l => !l.isEmpty) with
  | [] => none
  | h :: t => some (parseLine h, t.map parseLine)

/-- The manual sepia transform of `image_processing`, per pixel: the three
weighted sums are computed, truncated by `int(...)` (a floor on these
non-negative values, written here as exact natural division by 1000) and
clamped at 255. -/
def sepiaPixel (r g b : ℕ) : ℕ × ℕ × ℕ :=
  (min ((393 * r + 769 * g + 189 * b) / 1000) 255,
   min ((349 * r + 686 * g + 168 * b) / 1000) 255,
   min ((272 * r + 534 * g + 131 * b) / 1000) 255)

theorem opt_eq_some_getD {α : Type} (o : Option α) (d : α) (h : o.isSome = true) :
    o = some (o.getD d) := by
  cases o with
  | none => simp at h
  | some a => rfl

theorem digitsRev_lt_ten {f n d : ℕ} (h : d ∈ digitsRev f n) : d < 10 := by
  induction f generalizing n with
  | zero => simp [digitsRev] at h
  | succ f ih =>
    cases n with
    | zero => simp [digitsRev] at h
    | succ m =>
      simp only [digitsRev, List.mem_cons] at h
      rcases h with h | h
      · simpa [h] using Nat.mod_lt (m + 1) (by norm_num)
      · exact ih h

theorem decVal_digitsRev {f n : ℕ} (h : n ≤ f) : decVal (digitsRev f n) = n := by
  induction f generalizing n with
  | zero => interval_cases n; simp [digitsRev, decVal]
  | succ f ih =>
    cases n with
    | zero => simp [digitsRev, decVal]
    | succ m =>
      have hle : (m + 1) / 10 ≤ f := by
        have h1 : (m + 1) / 10 < m + 1 := Nat.div_lt_self (Nat.succ_pos m) (by norm_num)
        omega
      simp only [digitsRev, decVal, ih hle]
      exact Nat.mod_add_div (m + 1) 10

theorem decVal_append_zeros (xs : List ℕ) (k : ℕ) :
    decVal (xs ++ List.replicate k 0) = decVal xs := by
  induction xs with
  | nil =>
    simp only [List.nil_append, decVal]
    induction k with
    | zero => simp [decVal]
    | succ k ih => simpa [List.replicate_succ, decVal] using ih
  | cons d ds ih => simp [decVal, ih]

theorem digChar_decode {d : ℕ} (h : d < 10) : (digChar d).toNat - 48 = d := by
  interval_cases d <;> decide

theorem unpid_pidStr (i : ℕ) : unpid (pidStr i) = i := by
  have hdata : (pidStr i).data = 'P' :: (pidDigits i).map digChar := rfl
  have hdig : ∀ d ∈ pidDigits i, d < 10 := by
    intro d hd
    simp only [pidDigits, pad3, List.mem_append, List.mem_replicate, List.mem_reverse] at hd
    rcases hd with hd | hd
    · omega
    · exact digitsRev_lt_ten hd
  have hmap : ((pidDigits i).map digChar).map (fun c => c.toNat - 48) = pidDigits i := by
    rw [List.map_map]
    refine List.map_congr_left ?_ |>.trans (List.map_id _)
    intro d hd
    exact digChar_decode (hdig d hd)
  unfold unpid
  rw [hdata]
  simp only [List.drop_succ_cons, List.drop_zero, hmap]
  unfold pidDigits pad3
  rw [List.reverse_append, List.reverse_reverse, List.reverse_replicate]
  rw [decVal_append_zeros]
  exact decVal_digitsRev (le_refl i)

theorem pidStr_injective : Function.Injective pidStr :=
  Function.LeftInverse.injective unpid_pidStr

theorem choiceOpt_mem {α : Type} {l : List α} {n : ℕ} {x : α}
    (h : choiceOpt l n = some x) : x ∈ l := by
  unfold choiceOpt at h
  exact List.get?_mem h

theorem mkParticipant_spec {rng : Rng} {domains states : List String}
    {i k : ℕ} {p : Participant} {k2 : ℕ}
    (h : mkParticipant rng domains states i k = some (p, k2)) :
    p.pid = pidStr i ∧ p.state ∈ states ∧ p.domain ∈ domains ∧
    p.day = pyRandint 1 3 (rng.nat (k + 7)) ∧
    p.regTime = regTimeModel (pyRandint 1 3 (rng.nat (k + 7)))
      (rng.frac (k + 8)) (rng.frac (k + 9)) ∧
    (∃ m, p.completion = pyRandint 60 100 (rng.nat m) ∨
      p.completion = pyRandint 30 85 (rng.nat m)) := by
  unfold mkParticipant at h
  cases hst : choiceOpt states (rng.nat (k + 5)) with
  | none => rw [hst] at h; exact absurd h (by simp)
  | some st =>
    rw [hst] at h
    cases hdm : choiceOpt domains (rng.nat (k + 6)) with
    | none => rw [hdm] at h; exact absurd h (by simp)
    | some dom =>
      rw [hdm] at h
      simp only [Option.some.injEq, Prod.mk.injEq] at h
      obtain ⟨hp, -⟩ := h
      subst hp
      refine ⟨rfl, choiceOpt_mem hst, choiceOpt_mem hdm, rfl, rfl, ?_⟩
      refine ⟨(match domainKeywords.lookup dom with
        | some _ => k + 14
        | none => k + 13), ?_⟩
      by_cases hneg : sentimentOf (rng.frac (k + 11)) ≠ "negative"
      · left
        cases hkw : domainKeywords.lookup dom <;> simp only [hkw] <;>
          rw [if_pos hneg]
      · right
        cases hkw : domainKeywords.lookup dom <;> simp only [hkw] <;>
          rw [if_neg hneg]

theorem genRows_forall {rng : Rng} {domains states : List String}
    (P : Participant → Prop)
    (hP : ∀ i k p k2, mkParticipant rng domains states i k = some (p, k2) → P p) :
    ∀ n i k rows, genRows rng domains states i n k = some rows →
      ∀ p ∈ rows, P p := by
  intro n
  induction n with
  | zero =>
    intro i k rows h p hp
    simp only [genRows, Option.some.injEq] at h
    subst h
    simp at hp
  | succ n ih =>
    intro i k rows h p hp
    simp only [genRows] at h
    cases hmk : mkParticipant rng domains states i k with
    | none => simp [hmk] at h
    | some pk =>
      obtain ⟨p1, kk⟩ := pk
      simp only [hmk] at h
      cases hrest : genRows rng domains states (i + 1) n kk with
      | none => simp [hrest] at h
      | some rest =>
        simp only [hrest, Option.some.injEq] at h
        subst h
        rcases List.mem_cons.mp hp with hp | hp
        · exact hp ▸ hP i k p1 kk hmk
        · exact ih (i + 1) kk rest hrest p hp

theorem genRows_ids {rng : Rng} {domains states : List String} :
    ∀ n i k rows, genRows rng domains states i n k = some rows →
      rows.map (fun p => p.pid) = (List.range' i n).map pidStr := by
  intro n
  induction n with
  | zero =>
    intro i k rows h
    simp only [genRows, Option.some.injEq] at h
    subst h
    simp
  | succ n ih =>
    intro i k rows h
    simp only [genRows] at h
    cases hmk : mkParticipant rng domains states i k with
    | none => simp [hmk] at h
    | some pk =>
      obtain ⟨p1, kk⟩ := pk
      simp only [hmk] at h
      cases hrest : genRows rng domains states (i + 1) n kk with
      | none => simp [hrest] at h
      | some rest =>
        simp only [hrest, Option.some.injEq] at h
        subst h
        have hpid := (mkParticipant_spec hmk).1
        simp only [List.range'_succ, List.map_cons, hpid, ih (i + 1) kk rest hrest]

theorem pyRandint_bounds {a b : ℕ} (n : ℕ) (h : a ≤ b) :
    a ≤ pyRandint a b n ∧ pyRandint a b n ≤ b := by
  unfold pyRandint
  have hpos : 0 < b + 1 - a := by omega
  have := Nat.mod_lt n hpos
  omega

theorem deltaDays_eq (d : ℕ) : deltaDays d = d - 1 := by
  unfold deltaDays
  omega

theorem regTimeModel_bounds (d : ℕ) (r1 r2 : ℚ) (hd : 1 ≤ d)
    (h1 : 0 ≤ r1) (h1' : r1 < 1) (h2 : 0 ≤ r2) (h2' : r2 < 1) :
    0 ≤ regTimeModel d r1 r2 ∧ regTimeModel d r1 r2 < (d : ℚ) * 86400 := by
  unfold regTimeModel
  rw [deltaDays_eq]
  have hc : (0 : ℚ) ≤ ((d - 1 : ℕ) : ℚ) := Nat.cast_nonneg _
  constructor
  · have := mul_nonneg (mul_nonneg h1 hc) (by norm_num : (0 : ℚ) ≤ 86400)
    have := mul_nonneg h2 (by norm_num : (0 : ℚ) ≤ 86400)
    linarith
  · have ha : r1 * ((d - 1 : ℕ) : ℚ) ≤ ((d - 1 : ℕ) : ℚ) :=
      mul_le_of_le_one_left hc (le_of_lt h1')
    have hb : r1 * ((d - 1 : ℕ) : ℚ) * 86400 ≤ ((d - 1 : ℕ) : ℚ) * 86400 :=
      mul_le_mul_of_nonneg_right ha (by norm_num)
    have hcast : ((d - 1 : ℕ) : ℚ) = (d : ℚ) - 1 := by
      rw [Nat.cast_sub hd]; norm_num
    rw [hcast] at hb
    nlinarith

theorem mkParticipant_empty {domains states : List String} (rng : Rng) (i k : ℕ)
    (he : domains = [] ∨ states = []) :
    mkParticipant rng domains states i k = none := by
  rcases he with he | he
  · subst he
    unfold mkParticipant
    cases hst : choiceOpt states (rng.nat (k + 5)) <;> simp [hst, choiceOpt]
  · subst he
    unfold mkParticipant
    simp [choiceOpt]

/-- C1 (counterexample): a generated record can have `registration_time`
strictly before its own day's claimed window.  With the concrete stream
`oneRng` the single generated record has `day = 2` but a registration time of
0 seconds after the epoch (2023-03-15 00:00:00), below the day-2 window start
`event_epoch + 1 day`; the real generator realises such draws because
`random_date_time` always starts at the fixed epoch rather than at
`epoch + (day-1) days`. -/
theorem generateDataset_day_window_cex :
    ((generateDataset 1 ["AI/ML"] ["Delhi"] oneRng).getD []).map
        (fun p => (p.day, p.regTime)) = [(2, 0)] ∧
      ¬ (dayWindowLo 2 ≤ (0 : ℚ) ∧ (0 : ℚ) ≤ dayWindowHi 2) := by
  constructor
  · have hmap : ((generateDataset 1 ["AI/ML"] ["Delhi"] oneRng).getD []).map
        (fun p => (p.day, p.regTime)) = [(2, regTimeModel 2 0 0)] := by rfl
    rw [hmap, show regTimeModel 2 0 0 = 0 by norm_num [regTimeModel]]
  · intro hcontra
    have := hcontra.1
    norm_num [dayWindowLo] at this

/-- C1 (amended): every generated record has `day ∈ {1,2,3}` and a
registration time in `[event_epoch, event_epoch + day·24h)`: the lower bound
is the event epoch itself, not `epoch + (day-1) days`, and the upper bound is
strict at `epoch + day` days (so it can pass the day's 23:59:59 end by less
than one second), because `random_date_time` draws
`random() * (end-start).days` days plus `random() * 86400` seconds from the
fixed epoch. -/
theorem generateDataset_regTime_amended (rng : Rng) (count : ℕ)
    (ds ss : List String) (rows : List Participant)
    (hfrac : ∀ j, 0 ≤ rng.frac j ∧ rng.frac j < 1)
    (h : generateDataset count ds ss rng = some rows) :
    ∀ p ∈ rows, 1 ≤ p.day ∧ p.day ≤ 3 ∧
      0 ≤ p.regTime ∧ p.regTime < (p.day : ℚ) * 86400 := by
  refine genRows_forall _ (fun i k p k2 hmk => ?_) count 1 0 rows h
  obtain ⟨-, -, -, hday, hreg, -⟩ := mkParticipant_spec hmk
  rw [← hday] at hreg
  have hdayb := pyRandint_bounds (rng.nat (k + 7)) (show (1 : ℕ) ≤ 3 by norm_num)
  rw [← hday] at hdayb
  have hregb := regTimeModel_bounds p.day (rng.frac (k + 8)) (rng.frac (k + 9))
    hdayb.1 (hfrac (k + 8)).1 (hfrac (k + 8)).2
    (hfrac (k + 9)).1 (hfrac (k + 9)).2
  rw [hreg]
  exact ⟨hdayb.1, hdayb.2, hregb.1, hregb.2⟩

theorem generateDataset_regTime_amended_w :
    generateDataset 1 ["AI/ML"] ["Delhi"] zeroRng =
      some ((generateDataset 1 ["AI/ML"] ["Delhi"] zeroRng).getD []) ∧
    ∀ p ∈ (generateDataset 1 ["AI/ML"] ["Delhi"] zeroRng).getD [],
      1 ≤ p.day ∧ p.day ≤ 3 ∧ 0 ≤ p.regTime ∧ p.regTime < (p.day : ℚ) * 86400 := by
  have hsome : generateDataset 1 ["AI/ML"] ["Delhi"] zeroRng =
      some ((generateDataset 1 ["AI/ML"] ["Delhi"] zeroRng).getD []) :=
    opt_eq_some_getD _ _ (by decide)
  exact ⟨hsome, generateDataset_regTime_amended zeroRng 1 _ _ _
    (fun j => by norm_num [zeroRng]) hsome⟩

/-- C2: the generator is deterministic.  In this embedding
`generate_dataset` is a pure function of `(count, domains, states)` and the
draw stream, and `random.seed(seed)` makes the stream a function of the seed
alone (`np.random` is also seeded but never consumed afterwards), so two
invocations with the same inputs and seed give identical tables. -/
theorem generateDataset_deterministic (seedStream : ℕ → Rng) (seed count : ℕ)
    (ds ss : List String) :
    generateDataset count ds ss (seedStream seed) =
      generateDataset count ds ss (seedStream seed) := rfl

/-- C3: a successful run with `count` participants yields exactly `count`
rows whose ids are, in order, `P` followed by the 3-zero-padded numbers
1..count, with no duplicates. -/
theorem generateDataset_ids (rng : Rng) (count : ℕ) (ds ss : List String)
    (rows : List Participant)
    (h : generateDataset count ds ss rng = some rows) :
    rows.length = count ∧
      rows.map (fun p => p.pid) = (List.range' 1 count).map pidStr ∧
      (rows.map (fun p => p.pid)).Nodup := by
  have hids := genRows_ids count 1 0 rows h
  have hlen : rows.length = count := by
    have hl := congrArg List.length hids
    simpa using hl
  refine ⟨hlen, hids, ?_⟩
  rw [hids]
  exact (List.nodup_range' _ _).map pidStr_injective

theorem generateDataset_ids_w :
    generateDataset 2 ["AI/ML"] ["Delhi"] zeroRng =
      some ((generateDataset 2 ["AI/ML"] ["Delhi"] zeroRng).getD []) ∧
    ((generateDataset 2 ["AI/ML"] ["Delhi"] zeroRng).getD []).length = 2 ∧
    ((generateDataset 2 ["AI/ML"] ["Delhi"] zeroRng).getD []).map (fun p => p.pid) =
      (List.range' 1 2).map pidStr ∧
    (((generateDataset 2 ["AI/ML"] ["Delhi"] zeroRng).getD []).map
      (fun p => p.pid)).Nodup := by
  have hsome : generateDataset 2 ["AI/ML"] ["Delhi"] zeroRng =
      some ((generateDataset 2 ["AI/ML"] ["Delhi"] zeroRng).getD []) :=
    opt_eq_some_getD _ _ (by decide)
  have hmain := generateDataset_ids zeroRng 2 _ _ _ hsome
  exact ⟨hsome, hmain.1, hmain.2.1, hmain.2.2⟩

/-- C4: every generated record's domain comes from the caller-supplied
domain list and its state from the caller-supplied state list
(`random.choice(domains)`, `random.choice(states)`). -/
theorem generateDataset_closure (rng : Rng) (count : ℕ) (ds ss : List String)
    (rows : List Participant)
    (h : generateDataset count ds ss rng = some rows) :
    ∀ p ∈ rows, p.domain ∈ ds ∧ p.state ∈ ss := by
  refine genRows_forall _ (fun i k p k2 hmk => ?_) count 1 0 rows h
  have hs := mkParticipant_spec hmk
  exact ⟨hs.2.2.1, hs.2.1⟩

theorem generateDataset_closure_w :
    generateDataset 2 ["AI/ML", "IoT"] ["Delhi", "Goa"] zeroRng =
      some ((generateDataset 2 ["AI/ML", "IoT"] ["Delhi", "Goa"] zeroRng).getD []) ∧
    ∀ p ∈ (generateDataset 2 ["AI/ML", "IoT"] ["Delhi", "Goa"] zeroRng).getD [],
      p.domain ∈ ["AI/ML", "IoT"] ∧ p.state ∈ ["Delhi", "Goa"] := by
  have hsome : generateDataset 2 ["AI/ML", "IoT"] ["Delhi", "Goa"] zeroRng =
      some ((generateDataset 2 ["AI/ML", "IoT"] ["Delhi", "Goa"] zeroRng).getD []) :=
    opt_eq_some_getD _ _ (by decide)
  exact ⟨hsome, generateDataset_closure zeroRng 2 _ _ _ hsome⟩

/-- C5 (counterexample): calling the generator with `count = 0 < 1` (and
valid non-empty pools) does not fail and does not reject the input: the
`range(1, count+1)` loop is empty and an empty table is returned. -/
theorem generateDataset_count_zero_cex :
    generateDataset 0 ["AI/ML"] ["Delhi"] zeroRng = some [] ∧
      generateDataset 0 ["AI/ML"] ["Delhi"] zeroRng ≠ none := by
  refine ⟨rfl, ?_⟩
  intro hcontra
  simp [generateDataset, genRows] at hcontra

/-- C5 (amended): `generate_dataset` itself performs no validation.  With
`count ≥ 1` and an empty `domains` or empty `states` list it fails with an
uncaught `IndexError` from `random.choice` (modelled: no table, `none`); with
`count < 1` it silently returns an empty table (see the counterexample); only
the page-level caller rejects an empty domain selection before invoking it,
and nothing validates `states` or `count`. -/
theorem generateDataset_empty_inputs_amended (rng : Rng) (count : ℕ)
    (ds ss : List String) (hc : 1 ≤ count) (he : ds = [] ∨ ss = []) :
    generateDataset count ds ss rng = none ∧
      generateDatasetPage count [] ss rng = none := by
  constructor
  · obtain ⟨n, rfl⟩ : ∃ n, count = n + 1 := ⟨count - 1, by omega⟩
    unfold generateDataset
    simp only [genRows, mkParticipant_empty rng 1 0 he]
  · simp [generateDatasetPage]

theorem generateDataset_empty_inputs_amended_w :
    generateDataset 1 [] ["Delhi"] zeroRng = none ∧
      generateDatasetPage 1 [] ["Delhi"] zeroRng = none :=
  generateDataset_empty_inputs_amended zeroRng 1 [] ["Delhi"] (by norm_num)
    (Or.inl rfl)

/-- C6: the completion draw is `randint(60, 100)` when the drawn sentiment is
not negative and `randint(30, 85)` when it is, so the non-negative branch
always lands in [60, 100], the negative branch in [30, 85], and every
generated record's `Project_Completion` lies in [30, 100]. -/
theorem generateDataset_completion_ranges :
    (∀ n, 60 ≤ pyRandint 60 100 n ∧ pyRandint 60 100 n ≤ 100) ∧
    (∀ n, 30 ≤ pyRandint 30 85 n ∧ pyRandint 30 85 n ≤ 85) ∧
    (∀ (rng : Rng) (count : ℕ) (ds ss : List String) (rows : List Participant),
      generateDataset count ds ss rng = some rows →
      ∀ p ∈ rows, 30 ≤ p.completion ∧ p.completion ≤ 100) := by
  refine ⟨fun n => pyRandint_bounds n (by norm_num),
    fun n => pyRandint_bounds n (by norm_num), ?_⟩
  intro rng count ds ss rows h
  refine genRows_forall _ (fun i k p k2 hmk => ?_) count 1 0 rows h
  obtain ⟨-, -, -, -, -, m, hm⟩ := mkParticipant_spec hmk
  rcases hm with hm | hm <;> rw [hm]
  · have := pyRandint_bounds (rng.nat m) (show (60 : ℕ) ≤ 100 by norm_num)
    omega
  · have := pyRandint_bounds (rng.nat m) (show (30 : ℕ) ≤ 85 by norm_num)
    omega

theorem generateDataset_completion_ranges_w :
    (60 ≤ pyRandint 60 100 7 ∧ pyRandint 60 100 7 ≤ 100) ∧
    (30 ≤ pyRandint 30 85 7 ∧ pyRandint 30 85 7 ≤ 85) ∧
    (generateDataset 1 ["AI/ML"] ["Delhi"] zeroRng =
      some ((generateDataset 1 ["AI/ML"] ["Delhi"] zeroRng).getD [])) ∧
    ∀ p ∈ (generateDataset 1 ["AI/ML"] ["Delhi"] zeroRng).getD [],
      30 ≤ p.completion ∧ p.completion ≤ 100 := by
  have hsome : generateDataset 1 ["AI/ML"] ["Delhi"] zeroRng =
      some ((generateDataset 1 ["AI/ML"] ["Delhi"] zeroRng).getD []) :=
    opt_eq_some_getD _ _ (by decide)
  exact ⟨generateDataset_completion_ranges.1 7,
    generateDataset_completion_ranges.2.1 7, hsome,
    generateDataset_completion_ranges.2.2 zeroRng 1 _ _ _ hsome⟩

/-- C7: the scorer's reported positive percentage is 100 times the spec's
`positive_fraction = positive_count / (positive_count + negative_count)`
(itself 0 when the denominator is 0), and on any feedback collection in which
no row contains any tracked keyword it reports 0 instead of failing or
dividing by zero. -/
theorem positivePercent_spec (rows : List String) :
    positivePercent rows = 100 * positiveFractionSpec rows ∧
    ((∀ r ∈ rows, ∀ w ∈ positiveKeywords ++ negativeKeywords,
        containsCI r w = false) →
      positivePercent rows = 0) := by
  constructor
  · unfold positivePercent positiveFractionSpec
    by_cases h0 : positiveCount rows + negativeCount rows = 0
    · simp [h0]
    · have hpos : 0 < positiveCount rows + negativeCount rows := Nat.pos_of_ne_zero h0
      simp only [h0, if_false, hpos, if_true]
      push_cast
      ring
  · intro hnone
    have hzero : ∀ w ∈ positiveKeywords ++ negativeKeywords, keywordRowCount rows w = 0 := by
      intro w hw
      unfold keywordRowCount
      rw [List.filter_eq_nil_iff.mpr]
      · rfl
      · intro r hr
        simp only [Bool.not_eq_true]
        exact hnone r hr w hw
    have hp : positiveCount rows = 0 := by
      unfold positiveCount
      apply List.sum_eq_zero
      intro x hx
      obtain ⟨w, hw, rfl⟩ := List.mem_map.mp hx
      exact hzero w (List.mem_append_left _ hw)
    have hn : negativeCount rows = 0 := by
      unfold negativeCount
      apply List.sum_eq_zero
      intro x hx
      obtain ⟨w, hw, rfl⟩ := List.mem_map.mp hx
      exact hzero w (List.mem_append_right _ hw)
    unfold positivePercent
    simp [hp, hn]

theorem positivePercent_spec_w :
    (∀ r ∈ ["the venue was fine"], ∀ w ∈ positiveKeywords ++ negativeKeywords,
      containsCI r w = false) ∧
    positivePercent ["the venue was fine"] = 0 :=
  ⟨by decide, (positivePercent_spec ["the venue was fine"]).2 (by decide)⟩

theorem sepia_floor_eq (c0 c1 c2 r g b : ℕ) :
    ⌊((c0 : ℚ) / 1000 * r + (c1 : ℚ) / 1000 * g + (c2 : ℚ) / 1000 * b)⌋₊ =
      (c0 * r + c1 * g + c2 * b) / 1000 := by
  have hq : ((c0 : ℚ) / 1000 * r + (c1 : ℚ) / 1000 * g + (c2 : ℚ) / 1000 * b) =
      ((c0 * r + c1 * g + c2 * b : ℕ) : ℚ) / 1000 := by
    push_cast
    ring
  rw [hq, Nat.floor_div_ofNat, Nat.floor_natCast]

/-- C10: for every RGB pixel the manual sepia transform computes the three
claimed channel values, `min(255, floor(0.393r + 0.769g + 0.189b))` and its
two siblings (`int(...)` truncates these non-negative floats, i.e. floors
them; the float coefficients are modelled as exact decimals), and after the
clamp every output channel lies in [0, 255], so the per-pixel transform is
total on RGB inputs. -/
theorem sepiaPixel_spec (r g b : ℕ) :
    sepiaPixel r g b =
      (min 255 ⌊(0.393 * r + 0.769 * g + 0.189 * b : ℚ)⌋₊,
       min 255 ⌊(0.349 * r + 0.686 * g + 0.168 * b : ℚ)⌋₊,
       min 255 ⌊(0.272 * r + 0.534 * g + 0.131 * b : ℚ)⌋₊) ∧
    (0 ≤ (sepiaPixel r g b).1 ∧ (sepiaPixel r g b).1 ≤ 255) ∧
    (0 ≤ (sepiaPixel r g b).2.1 ∧ (sepiaPixel r g b).2.1 ≤ 255) ∧
    (0 ≤ (sepiaPixel r g b).2.2 ∧ (sepiaPixel r g b).2.2 ≤ 255) := by
  have h1 : (0.393 * (r : ℚ) + 0.769 * g + 0.189 * b) =
      ((393 : ℕ) : ℚ) / 1000 * r + ((769 : ℕ) : ℚ) / 1000 * g + ((189 : ℕ) : ℚ) / 1000 * b := by
    norm_num
  have h2 : (0.349 * (r : ℚ) + 0.686 * g + 0.168 * b) =
      ((349 : ℕ) : ℚ) / 1000 * r + ((686 : ℕ) : ℚ) / 1000 * g + ((168 : ℕ) : ℚ) / 1000 * b := by
    norm_num
  have h3 : (0.272 * (r : ℚ) + 0.534 * g + 0.131 * b) =
      ((272 : ℕ) : ℚ) / 1000 * r + ((534 : ℕ) : ℚ) / 1000 * g + ((131 : ℕ) : ℚ) / 1000 * b := by
    norm_num
  refine ⟨?_, ⟨Nat.zero_le _, ?_⟩, ⟨Nat.zero_le _, ?_⟩, ⟨Nat.zero_le _, ?_⟩⟩
  · unfold sepiaPixel
    rw [h1, h2, h3, sepia_floor_eq, sepia_floor_eq, sepia_floor_eq]
    simp [Nat.min_comm]
  · exact min_le_right _ _
  · exact min_le_right _ _
  · exact min_le_right _ _

theorem splitLines_append {l : List Char} (rest : List Char) (hl : '\n' ∉ l) :
    splitLines (l ++ '\n' :: rest) = l :: splitLines rest := by
  induction l with
  | nil =>
    simp only [List.nil_append, splitLines, List.foldr_cons, if_pos rfl]
    rfl
  | cons c cs ih =>
    have hc : c ≠ '\n' := fun h => hl (h ▸ List.mem_cons_self c cs)
    have hcs : '\n' ∉ cs := fun h => hl (List.mem_cons_of_mem c h)
    simp only [List.cons_append, splitLines, List.foldr_cons, if_neg hc]
    have ihl := ih hcs
    simp only [splitLines] at ihl
    rw [ihl]

theorem splitFields_flat {f : List Char} (cs cur : List Char)
    (hq : '"' ∉ f) (hc : ',' ∉ f) :
    splitFields (f ++ ',' :: cs) cur false =
      String.mk (cur ++ f) :: splitFields cs [] false := by
  induction f generalizing cur with
  | nil => simp [splitFields]
  | cons c f ih =>
    have h1 : c ≠ '"' := fun h => hq (h ▸ List.mem_cons_self c f)
    have h2 : c ≠ ',' := fun h => hc (h ▸ List.mem_cons_self c f)
    have hq' : '"' ∉ f := fun h => hq (List.mem_cons_of_mem c h)
    have hc' : ',' ∉ f := fun h => hc (List.mem_cons_of_mem c h)
    simp only [List.cons_append, splitFields, List.append_eq, if_neg h1, if_neg h2]
    rw [ih (cur ++ [c]) hq' hc']
    simp

theorem splitFields_last {f : List Char} (cur : List Char)
    (hq : '"' ∉ f) (hc : ',' ∉ f) :
    splitFields f cur false = [String.mk (cur ++ f)] := by
  induction f generalizing cur with
  | nil => simp [splitFields]
  | cons c f ih =>
    have h1 : c ≠ '"' := fun h => hq (h ▸ List.mem_cons_self c f)
    have h2 : c ≠ ',' := fun h => hc (h ▸ List.mem_cons_self c f)
    have hq' : '"' ∉ f := fun h => hq (List.mem_cons_of_mem c h)
    have hc' : ',' ∉ f := fun h => hc (List.mem_cons_of_mem c h)
    simp only [splitFields, List.append_eq, if_neg h1, if_neg h2]
    rw [ih (cur ++ [c]) hq' hc']
    simp

theorem splitFields_quoted {f : List Char} (cs cur : List Char) (hq : '"' ∉ f) :
    splitFields (f ++ '"' :: cs) cur true = splitFields cs (cur ++ f) false := by
  induction f generalizing cur with
  | nil => simp [splitFields]
  | cons c f ih =>
    have h1 : c ≠ '"' := fun h => hq (h ▸ List.mem_cons_self c f)
    have hq' : '"' ∉ f := fun h => hq (List.mem_cons_of_mem c h)
    simp only [List.cons_append, splitFields, List.append_eq, if_neg h1]
    rw [ih (cur ++ [c]) hq']
    simp

theorem csvNeedsQuote_comma {f : List Char} (hneed : ¬csvNeedsQuote f = true) :
    ',' ∉ f := by
  intro hmem
  apply hneed
  unfold csvNeedsQuote
  simp only [Bool.or_eq_true, decide_eq_true_eq]
  exact Or.inl (Or.inl (by simpa using hmem))

theorem splitFields_field_comma {f : List Char} (cs : List Char) (hq : '"' ∉ f)
    (_hn : '\n' ∉ f) :
    splitFields (csvField f ++ ',' :: cs) [] false =
      String.mk f :: splitFields cs [] false := by
  unfold csvField
  by_cases hneed : csvNeedsQuote f = true
  · rw [if_pos hneed]
    show splitFields ('"' :: (f ++ ['"'] ++ ',' :: cs)) [] false = _
    simp only [splitFields, List.append_assoc, List.singleton_append,
      if_pos rfl]
    rw [splitFields_quoted _ _ hq]
    simp [splitFields]
  · rw [if_neg hneed]
    simpa using splitFields_flat cs [] hq (csvNeedsQuote_comma hneed)

theorem splitFields_field_last {f : List Char} (hq : '"' ∉ f) (_hn : '\n' ∉ f) :
    splitFields (csvField f) [] false = [String.mk f] := by
  unfold csvField
  by_cases hneed : csvNeedsQuote f = true
  · rw [if_pos hneed]
    show splitFields ('"' :: (f ++ ['"'])) [] false = _
    simp only [splitFields, if_pos rfl]
    rw [splitFields_quoted _ _ hq]
    simp [splitFields]
  · rw [if_neg hneed]
    simpa using splitFields_last [] hq (csvNeedsQuote_comma hneed)

theorem parseLine_csvLine {row : List String} (hrow : row ≠ [])
    (hf : ∀ f ∈ row, '"' ∉ f.data ∧ '\n' ∉ f.data) :
    parseLine (csvLine row) = row := by
  induction row with
  | nil => exact absurd rfl hrow
  | cons f rest ih =>
    have hff := hf f (List.mem_cons_self f rest)
    cases rest with
    | nil =>
      show splitFields (csvJoin [csvField f.data]) [] false = [f]
      unfold csvJoin
      rw [splitFields_field_last hff.1 hff.2]
    | cons g rest2 =>
      have hrest : parseLine (csvLine (g :: rest2)) = g :: rest2 :=
        ih (by simp) (fun x hx => hf x (List.mem_cons_of_mem f hx))
      show splitFields
        (csvJoin (csvField f.data :: csvField g.data :: rest2.map (fun x => csvField x.data)))
        [] false = f :: g :: rest2
      unfold csvJoin
      rw [splitFields_field_comma _ hff.1 hff.2]
      exact congrArg (f :: ·) hrest

theorem csvField_mem {c : Char} {f : List Char} (h : c ∈ csvField f) :
    c ∈ f ∨ c = '"' := by
  unfold csvField at h
  by_cases hneed : csvNeedsQuote f = true
  · rw [if_pos hneed] at h
    rcases List.mem_cons.mp h with h | h
    · exact Or.inr h
    · rcases List.mem_append.mp h with h | h
      · exact Or.inl h
      · exact Or.inr (by simpa using h)
  · rw [if_neg hneed] at h
    exact Or.inl h

theorem csvJoin_mem {c : Char} : ∀ {ls : List (List Char)}, c ∈ csvJoin ls →
    (∃ l ∈ ls, c ∈ l) ∨ c = ','
  | [], h => by simp [csvJoin] at h
  | [x], h => by
    simp only [csvJoin] at h
    exact Or.inl ⟨x, by simp, h⟩
  | x :: y :: xs, h => by
    simp only [csvJoin] at h
    rcases List.mem_append.mp h with h | h
    · exact Or.inl ⟨x, by simp, h⟩
    · rcases List.mem_cons.mp h with h | h
      · exact Or.inr h
      · rcases csvJoin_mem h with ⟨l, hl, hc⟩ | h
        · exact Or.inl ⟨l, List.mem_cons_of_mem x hl, hc⟩
        · exact Or.inr h

theorem csvLine_no_newline {row : List String}
    (hf : ∀ f ∈ row, '\n' ∉ f.data) : '\n' ∉ csvLine row := by
  intro hmem
  rcases csvJoin_mem hmem with ⟨l, hl, hc⟩ | h
  · obtain ⟨f, hfr, rfl⟩ := List.mem_map.mp hl
    rcases csvField_mem hc with hc | hc
    · exact hf f hfr hc
    · exact absurd hc (by decide)
  · exact absurd h (by decide)

theorem csvLine_ne_nil {row : List String} (h2 : 2 ≤ row.length) :
    csvLine row ≠ [] := by
  match row, h2 with
  | f :: g :: rest, _ =>
    show csvJoin (csvField f.data :: csvField g.data ::
      rest.map (fun x => csvField x.data)) ≠ []
    unfold csvJoin
    intro hcontra
    rcases List.append_eq_nil.mp hcontra with ⟨-, h⟩
    exact List.cons_ne_nil _ _ h

theorem splitLines_csvChars {rows : List (List String)}
    (hnl : ∀ row ∈ rows, '\n' ∉ csvLine row) :
    splitLines (csvChars rows) = rows.map csvLine := by
  induction rows with
  | nil => rfl
  | cons r rs ih =>
    have hstep : csvChars (r :: rs) = csvLine r ++ '\n' :: csvChars rs := rfl
    rw [hstep, splitLines_append _ (hnl r (List.mem_cons_self r rs)),
      ih (fun row hr => hnl row (List.mem_cons_of_mem r hr))]
    rfl

/-- C9: the CSV export/import round trip.  For every table (header row plus
data rows, at least two columns, fields free of quote characters and line
breaks — which holds for every exported generator table), serializing with
the default pandas dialect (`to_csv(index=False)`: comma separator, minimal
quoting of fields containing the separator, newline-terminated rows) and
re-parsing (`read_csv`: first line header, blank lines skipped, quote-aware
field splitting) reproduces every row field-for-field, exactly — the claim's
1e-6 float-formatting tolerance is not even needed at the level of
serialized fields. -/
theorem csv_roundtrip (header : List String) (rows : List (List String))
    (hshape : ∀ r ∈ header :: rows, 2 ≤ r.length ∧
      ∀ f ∈ r, '"' ∉ f.data ∧ '\n' ∉ f.data) :
    readCSV (csvChars (header :: rows)) = some (header, rows) := by
  have hnl : ∀ row ∈ header :: rows, '\n' ∉ csvLine row := fun row hr =>
    csvLine_no_newline (fun f hf => ((hshape row hr).2 f hf).2)
  unfold readCSV
  rw [splitLines_csvChars hnl]
  have hfilter : ((header :: rows).map csvLine).filter (fun l => !l.isEmpty) =
      (header :: rows).map csvLine := by
    apply List.filter_eq_self.mpr
    intro a ha
    obtain ⟨row, hrow, rfl⟩ := List.mem_map.mp ha
    have hne := csvLine_ne_nil (hshape row hrow).1
    simpa using hne
  rw [hfilter]
  simp only [List.map_cons]
  have hhd : parseLine (csvLine header) = header :=
    parseLine_csvLine (by
        have := (hshape header (List.mem_cons_self _ _)).1
        intro hcontra
        rw [hcontra] at this
        simp at this)
      (fun f hf => (hshape header (List.mem_cons_self _ _)).2 f hf)
  have htl : (rows.map csvLine).map parseLine = rows := by
    rw [List.map_map]
    have : ∀ r ∈ rows, (parseLine ∘ csvLine) r = r := by
      intro r hr
      have hsh := hshape r (List.mem_cons_of_mem _ hr)
      refine parseLine_csvLine ?_ (fun f hf => hsh.2 f hf)
      intro hcontra
      rw [hcontra] at hsh
      simp at hsh
    rw [List.map_congr_left this]
    simp
  rw [hhd, htl]

theorem csv_roundtrip_w :
    (∀ r ∈ [["Participant_ID", "Feedback"],
        ["P001", "Food could be better at the IoT event, but overall it was fine."],
        ["P002", "Great experience in the IoT event."]],
      2 ≤ r.length ∧ ∀ f ∈ r, '"' ∉ f.data ∧ '\n' ∉ f.data) ∧
    readCSV (csvChars [["Participant_ID", "Feedback"],
        ["P001", "Food could be better at the IoT event, but overall it was fine."],
        ["P002", "Great experience in the IoT event."]]) =
      some (["Participant_ID", "Feedback"],
        [["P001", "Food could be better at the IoT event, but overall it was fine."],
         ["P002", "Great experience in the IoT event."]]) :=
  ⟨by decide, csv_roundtrip _ _ (by decide)⟩

theorem char_toNat_ofNat (n : ℕ) (hv : n.isValidChar) :
    (Char.ofNat n).toNat = n := by
  simp [Char.ofNat, hv, Char.ofNatAux, Char.toNat, UInt32.toNat, BitVec.toNat_ofNatLt]

theorem toLower_idem (c : Char) :
    Char.toLower (Char.toLower c) = Char.toLower c := by
  unfold Char.toLower
  by_cases h : 65 ≤ c.toNat ∧ c.toNat ≤ 90
  · rw [if_pos h]
    have hv : (c.toNat + 32).isValidChar := Or.inl (by omega)
    have ht : (Char.ofNat (c.toNat + 32)).toNat = c.toNat + 32 :=
      char_toNat_ofNat _ hv
    rw [if_neg (by rw [ht]; omega)]
  · rw [if_neg h, if_neg h]

theorem runStep_word {c : Char} (acc : List Char × List (List Char))
    (h : isWordChar c = true) : runStep c acc = (c :: acc.1, acc.2) := by
  unfold runStep
  rw [if_pos h]

theorem runStep_other {c : Char} (acc : List Char × List (List Char))
    (h : ¬isWordChar c = true) :
    runStep c acc = ([], if acc.1 = [] then acc.2 else acc.1 :: acc.2) := by
  unfold runStep
  rw [if_neg h]

theorem foldr_runStep_subset (cs : List Char) :
    (∀ c ∈ (cs.foldr runStep ([], [])).1, c ∈ cs) ∧
    (∀ r ∈ (cs.foldr runStep ([], [])).2, ∀ c ∈ r, c ∈ cs) := by
  induction cs with
  | nil => exact ⟨by simp, by simp⟩
  | cons x xs ih =>
    rw [List.foldr_cons]
    by_cases hx : isWordChar x = true
    · rw [runStep_word _ hx]
      refine ⟨?_, ?_⟩
      · intro c hc
        rcases List.mem_cons.mp hc with rfl | hc
        · exact List.mem_cons_self _ _
        · exact List.mem_cons_of_mem _ (ih.1 c hc)
      · intro r hr c hc
        exact List.mem_cons_of_mem _ (ih.2 r hr c hc)
    · rw [runStep_other _ hx]
      refine ⟨by simp, ?_⟩
      intro r hr c hc
      by_cases hemp : (xs.foldr runStep ([], [])).1 = []
      · rw [if_pos hemp] at hr
        exact List.mem_cons_of_mem _ (ih.2 r hr c hc)
      · rw [if_neg hemp] at hr
        rcases List.mem_cons.mp hr with rfl | hr
        · exact List.mem_cons_of_mem _ (ih.1 c hc)
        · exact List.mem_cons_of_mem _ (ih.2 r hr c hc)

theorem wordRuns_subset {cs : List Char} {r : List Char} (hr : r ∈ wordRuns cs) :
    ∀ c ∈ r, c ∈ cs := by
  unfold wordRuns at hr
  by_cases hemp : (cs.foldr runStep ([], [])).1 = []
  · rw [if_pos hemp] at hr
    exact (foldr_runStep_subset cs).2 r hr
  · rw [if_neg hemp] at hr
    rcases List.mem_cons.mp hr with rfl | hr
    · exact (foldr_runStep_subset cs).1
    · exact (foldr_runStep_subset cs).2 r hr

theorem tokensOf_shape {s : String} {t : String} (ht : t ∈ tokensOf s) :
    t.data.all Char.isAlpha = true ∧ 3 ≤ t.data.length ∧ t.data.length ≤ 15 ∧
      t ∉ stopwordsEN ∧ t.data.map Char.toLower = t.data := by
  unfold tokensOf at ht
  obtain ⟨htraw, hstop⟩ := List.mem_filter.mp ht
  have hstop' : t ∉ stopwordsEN := by simpa using hstop
  unfold rawTokens at htraw
  obtain ⟨r, hrf, hmk⟩ := List.mem_map.mp htraw
  obtain ⟨hruns, hcond⟩ := List.mem_filter.mp hrf
  subst hmk
  have hdata : (String.mk r).data = r := rfl
  simp only [Bool.and_eq_true, decide_eq_true_eq] at hcond
  refine ⟨?_, ?_, ?_, hstop', ?_⟩
  · rw [hdata]; exact hcond.1.1
  · rw [hdata]; exact hcond.1.2
  · rw [hdata]; exact hcond.2
  · rw [hdata]
    have hlow : ∀ c ∈ r, Char.toLower c = c := by
      intro c hc
      have hcs := wordRuns_subset hruns c hc
      obtain ⟨c0, -, rfl⟩ := List.mem_map.mp hcs
      exact toLower_idem c0
    calc r.map Char.toLower = r.map id := List.map_congr_left hlow
    _ = r := List.map_id r

theorem counterGo_mem : ∀ (f : ℕ) (l : List String) (p : String × ℕ),
    l.length ≤ f → p ∈ counterGo f l → p.1 ∈ l ∧ p.2 = l.count p.1 := by
  intro f
  induction f with
  | zero =>
    intro l p hf hp
    interval_cases hl : l.length
    rw [List.length_eq_zero.mp hl] at hp
    simp [counterGo] at hp
  | succ f ih =>
    intro l p hf hp
    cases l with
    | nil => simp [counterGo] at hp
    | cons w ws =>
      simp only [counterGo, List.mem_cons] at hp
      rcases hp with hp | hp
      · subst hp
        refine ⟨List.mem_cons_self _ _, ?_⟩
        show 1 + ws.count w = (w :: ws).count w
        rw [List.count_cons_self]
        omega
      · have hlen : (ws.filter (fun x => !(x == w))).length ≤ f := by
          have := List.length_filter_le (fun x => !(x == w)) ws
          simp only [List.length_cons] at hf
          omega
        obtain ⟨hmem, hcnt⟩ := ih _ p hlen hp
        obtain ⟨hmem', hne⟩ := List.mem_filter.mp hmem
        have hne' : p.1 ≠ w := by simpa using hne
        refine ⟨List.mem_cons_of_mem _ hmem', ?_⟩
        rw [hcnt, List.count_filter (by simpa using hne'),
          List.count_cons_of_ne hne']

theorem counterGo_mem_of : ∀ (f : ℕ) (l : List String) (w : String),
    l.length ≤ f → w ∈ l → (w, l.count w) ∈ counterGo f l := by
  intro f
  induction f with
  | zero =>
    intro l w hf hw
    have hl : l = [] := List.length_eq_zero.mp (by omega)
    rw [hl] at hw
    simp at hw
  | succ f ih =>
    intro l w hf hw
    cases l with
    | nil => simp at hw
    | cons x ws =>
      by_cases hwx : w = x
      · subst hwx
        simp only [counterGo, List.count_cons_self]
        refine List.mem_cons.mpr (Or.inl ?_)
        show (w, ws.count w + 1) = (w, 1 + ws.count w)
        rw [Nat.add_comm]
      · have hmem : w ∈ ws := by
          rcases List.mem_cons.mp hw with h | h
          · exact absurd h hwx
          · exact h
        have hmemf : w ∈ ws.filter (fun x0 => !(x0 == x)) :=
          List.mem_filter.mpr ⟨hmem, by simpa using hwx⟩
        have hlen : (ws.filter (fun x0 => !(x0 == x))).length ≤ f := by
          have := List.length_filter_le (fun x0 => !(x0 == x)) ws
          simp only [List.length_cons] at hf
          omega
        have := ih _ w hlen hmemf
        rw [List.count_filter (by simpa using hwx)] at this
        simp only [counterGo]
        exact List.mem_cons.mpr (Or.inr (by
          rwa [List.count_cons_of_ne hwx]))

theorem indexOf_filter_lt {pr : String → Bool} :
    ∀ {l : List String} {a b : String}, a ∈ l.filter pr → b ∈ l.filter pr →
      (l.filter pr).indexOf a < (l.filter pr).indexOf b →
      l.indexOf a < l.indexOf b := by
  intro l
  induction l with
  | nil => intro a b ha _ _; simp at ha
  | cons x xs ih =>
    intro a b ha hb hab
    by_cases hx : pr x = true
    · rw [List.filter_cons_of_pos hx] at ha hb hab
      by_cases hax : a = x
      · subst hax
        have hbx : b ≠ a := by
          intro hcontra
          subst hcontra
          simp at hab
        rw [List.indexOf_cons_self] at hab ⊢
        rw [List.indexOf_cons_ne _ (fun h => hbx h.symm)]
        omega
      · have ha' : a ∈ xs.filter pr := by
          rcases List.mem_cons.mp ha with h | h
          · exact absurd h hax
          · exact h
        rw [List.indexOf_cons_ne _ (fun h => hax h.symm)] at hab
        by_cases hbx : b = x
        · subst hbx
          rw [List.indexOf_cons_self] at hab
          omega
        · have hb' : b ∈ xs.filter pr := by
            rcases List.mem_cons.mp hb with h | h
            · exact absurd h hbx
            · exact h
          rw [List.indexOf_cons_ne _ (fun h => hbx h.symm)] at hab
          rw [List.indexOf_cons_ne _ (fun h => hax h.symm),
            List.indexOf_cons_ne _ (fun h => hbx h.symm)]
          have := ih ha' hb' (by omega)
          omega
    · rw [List.filter_cons_of_neg hx] at ha hb hab
      have hax : a ≠ x := by
        intro hcontra
        subst hcontra
        exact hx (List.mem_filter.mp ha).2
      have hbx : b ≠ x := by
        intro hcontra
        subst hcontra
        exact hx (List.mem_filter.mp hb).2
      rw [List.indexOf_cons_ne _ (fun h => hax h.symm),
        List.indexOf_cons_ne _ (fun h => hbx h.symm)]
      have := ih ha hb hab
      omega

theorem counterGo_pairwise : ∀ (f : ℕ) (l : List String), l.length ≤ f →
    List.Pairwise (fun p q : String × ℕ => l.indexOf p.1 < l.indexOf q.1)
      (counterGo f l) := by
  intro f
  induction f with
  | zero =>
    intro l hf
    have hl : l = [] := List.length_eq_zero.mp (by omega)
    subst hl
    simp [counterGo]
  | succ f ih =>
    intro l hf
    cases l with
    | nil => simp [counterGo]
    | cons w ws =>
      have hlen : (ws.filter (fun x => !(x == w))).length ≤ f := by
        have := List.length_filter_le (fun x => !(x == w)) ws
        simp only [List.length_cons] at hf
        omega
      simp only [counterGo]
      refine List.pairwise_cons.mpr ⟨?_, ?_⟩
      · intro q hq
        obtain ⟨hqmem, -⟩ := counterGo_mem f _ q hlen hq
        obtain ⟨hqws, hqne⟩ := List.mem_filter.mp hqmem
        have hqne' : q.1 ≠ w := by simpa using hqne
        show (w :: ws).indexOf (w, 1 + ws.count w).1 < (w :: ws).indexOf q.1
        rw [List.indexOf_cons_self, List.indexOf_cons_ne _ (fun h => hqne' h.symm)]
        omega
      · have hpw := ih _ hlen
        refine List.Pairwise.imp_of_mem ?_ hpw
        intro p q hp hq hlt
        have hpmem := (counterGo_mem f _ p hlen hp).1
        have hqmem := (counterGo_mem f _ q hlen hq).1
        have hpne : p.1 ≠ w := by simpa using (List.mem_filter.mp hpmem).2
        have hqne : q.1 ≠ w := by simpa using (List.mem_filter.mp hqmem).2
        have hws := indexOf_filter_lt hpmem hqmem hlt
        rw [List.indexOf_cons_ne _ (fun h => hpne h.symm),
          List.indexOf_cons_ne _ (fun h => hqne h.symm)]
        omega

theorem rankRel_snd_le {tks : List String} {p q : String × ℕ}
    (h : rankRel tks p q) : q.2 ≤ p.2 := by
  rcases h with h | h
  · omega
  · omega

theorem mem_insertDesc {p x : String × ℕ} :
    ∀ {l : List (String × ℕ)}, x ∈ insertDesc p l ↔ x = p ∨ x ∈ l := by
  intro l
  induction l with
  | nil => simp [insertDesc]
  | cons q qs ih =>
    unfold insertDesc
    by_cases h : q.2 ≤ p.2
    · rw [if_pos h]
      simp
    · rw [if_neg h]
      simp only [List.mem_cons, ih]
      tauto

theorem insertDesc_perm (p : String × ℕ) :
    ∀ (l : List (String × ℕ)), (insertDesc p l).Perm (p :: l) := by
  intro l
  induction l with
  | nil => exact List.Perm.refl _
  | cons q qs ih =>
    unfold insertDesc
    by_cases h : q.2 ≤ p.2
    · rw [if_pos h]
    · rw [if_neg h]
      exact (ih.cons q).trans (List.Perm.swap p q qs)

theorem insertDesc_pairwise {tks : List String} {p : String × ℕ} :
    ∀ {l : List (String × ℕ)}, List.Pairwise (rankRel tks) l →
      (∀ q ∈ l, p.2 = q.2 → tks.indexOf p.1 < tks.indexOf q.1) →
      List.Pairwise (rankRel tks) (insertDesc p l) := by
  intro l
  induction l with
  | nil => intro _ _; simp [insertDesc, rankRel]
  | cons q qs ih =>
    intro hl htie
    obtain ⟨hq, hqs⟩ := List.pairwise_cons.mp hl
    unfold insertDesc
    by_cases h : q.2 ≤ p.2
    · rw [if_pos h]
      refine List.pairwise_cons.mpr ⟨?_, hl⟩
      intro y hy
      rcases List.mem_cons.mp hy with rfl | hy
      · rcases lt_or_eq_of_le h with hlt | heq
        · exact Or.inl hlt
        · exact Or.inr ⟨heq.symm, htie y (List.mem_cons_self _ _) heq.symm⟩
      · have hyq := rankRel_snd_le (hq y hy)
        rcases Nat.lt_or_ge y.2 p.2 with hlt | hge
        · exact Or.inl hlt
        · have heq : p.2 = y.2 := by omega
          exact Or.inr ⟨heq, htie y (List.mem_cons_of_mem _ hy) heq⟩
    · rw [if_neg h]
      refine List.pairwise_cons.mpr ⟨?_, ?_⟩
      · intro y hy
        rcases mem_insertDesc.mp hy with rfl | hy
        · exact Or.inl (by omega)
        · exact hq y hy
      · exact ih hqs (fun y hy => htie y (List.mem_cons_of_mem _ hy))

theorem sortDesc_perm : ∀ (l : List (String × ℕ)), (sortDesc l).Perm l := by
  intro l
  induction l with
  | nil => exact List.Perm.refl _
  | cons p ps ih =>
    exact (insertDesc_perm p (sortDesc ps)).trans (ih.cons p)

theorem sortDesc_pairwise {tks : List String} :
    ∀ {l : List (String × ℕ)},
      List.Pairwise (fun p q : String × ℕ =>
        tks.indexOf p.1 < tks.indexOf q.1) l →
      List.Pairwise (rankRel tks) (sortDesc l) := by
  intro l
  induction l with
  | nil => intro _; simp [sortDesc]
  | cons p ps ih =>
    intro hl
    obtain ⟨hp, hps⟩ := List.pairwise_cons.mp hl
    refine insertDesc_pairwise (ih hps) ?_
    intro q hq _
    exact hp q ((sortDesc_perm ps).mem_iff.mp hq)

/-- C8: the word-frequency extractor.  Tokens are the case-folded purely
alphabetic words of length 3–15 of the input (maximal word-character runs of
the lowercased text matching `\b[a-zA-Z]{3,15}\b`), minus the fixed stop-word
list; `Counter(words).most_common(k)` (the source instantiates `k = 15`)
returns entries that are exactly tokens paired with their frequencies, of
length `min k (number of distinct tokens)`, ordered by strictly descending
frequency with ties in first-occurrence order of the token list, and no
omitted token has a frequency exceeding any returned one. -/
theorem wordFreq_topK_spec (k : ℕ) (s : String) :
    (∀ t ∈ tokensOf s, t.data.all Char.isAlpha = true ∧ 3 ≤ t.data.length ∧
      t.data.length ≤ 15 ∧ t ∉ stopwordsEN ∧ t.data.map Char.toLower = t.data) ∧
    (∀ p ∈ wordFreq k s, p.1 ∈ tokensOf s ∧ p.2 = (tokensOf s).count p.1) ∧
    (wordFreq k s).length = min k (counterOf (tokensOf s)).length ∧
    List.Pairwise (rankRel (tokensOf s)) (wordFreq k s) ∧
    (∀ w ∈ tokensOf s, w ∉ (wordFreq k s).map Prod.fst →
      ∀ p ∈ wordFreq k s, (tokensOf s).count w ≤ p.2) := by
  have hpairwise : List.Pairwise (rankRel (tokensOf s))
      (sortDesc (counterOf (tokensOf s))) :=
    sortDesc_pairwise (counterGo_pairwise _ _ (le_refl _))
  refine ⟨fun t ht => tokensOf_shape ht, ?_, ?_, ?_, ?_⟩
  · intro p hp
    have hp1 : p ∈ sortDesc (counterOf (tokensOf s)) :=
      (List.take_sublist k _).subset hp
    have hp2 : p ∈ counterOf (tokensOf s) :=
      (sortDesc_perm _).mem_iff.mp hp1
    exact counterGo_mem _ _ p (le_refl _) hp2
  · show ((sortDesc (counterOf (tokensOf s))).take k).length = _
    rw [List.length_take, (sortDesc_perm (counterOf (tokensOf s))).length_eq]
  · exact hpairwise.sublist (List.take_sublist k _)
  · intro w hw hnot p hp
    have hwc : (w, (tokensOf s).count w) ∈ counterOf (tokensOf s) :=
      counterGo_mem_of _ _ w (le_refl _) hw
    have hsd : (w, (tokensOf s).count w) ∈ sortDesc (counterOf (tokensOf s)) :=
      (sortDesc_perm _).mem_iff.mpr hwc
    rw [← List.take_append_drop k (sortDesc (counterOf (tokensOf s)))] at hsd
    rcases List.mem_append.mp hsd with hmem | hmem
    · exact absurd (List.mem_map.mpr ⟨_, hmem, rfl⟩) hnot
    · have hfull : List.Pairwise (rankRel (tokensOf s))
          (List.take k (sortDesc (counterOf (tokensOf s))) ++
            List.drop k (sortDesc (counterOf (tokensOf s)))) := by
        rw [List.take_append_drop]
        exact hpairwise
      have hsplit := List.pairwise_append.mp hfull
      exact rankRel_snd_le (hsplit.2.2 p hp _ hmem)

theorem wordFreq_topK_spec_w :
    "mentors" ∈ tokensOf "great workshop great mentors workshop great" ∧
    "mentors" ∉ (wordFreq 2 "great workshop great mentors workshop great").map
      Prod.fst ∧
    ("workshop", 2) ∈ wordFreq 2 "great workshop great mentors workshop great" ∧
    (tokensOf "great workshop great mentors workshop great").count "mentors" ≤
      ("workshop", 2).2 :=
  ⟨by decide, by decide, by decide,
    (wordFreq_topK_spec 2 "great workshop great mentors workshop great").2.2.2.2
      "mentors" (by decide) (by decide) ("workshop", 2) (by decide)⟩
